import Mathlib

/-!
Verification of the `slice` utility: a streaming line-slicer.

The Rust source (src/slice.rs) defines a `Slice` specification with a signed
`begin` and an optional signed `end`, parsed from a `BEGIN:END` expression,
and `slice_input`, which selects the lines of the slice from a buffered
reader and writes them to a sink, using a bounded FIFO for the boundaries
expressed from the end of the stream.

This file shallowly embeds that code: machine integers `isize`/`usize`
become `Int`/`Nat` with explicit bounds where the code's saturating
arithmetic matters, strings become `List Char`, the reader becomes a list
of lines (or of read results in the fallible model), and the sink becomes
an accumulated list of written lines.
-/

/-- `usize::MAX` on the 64-bit target. -/
def usizeMax : Nat := 2 ^ 64 - 1

/-- `isize::MIN` on the 64-bit target. -/
def isizeMin : Int := -(2 ^ 63)

/-- `isize::MAX` on the 64-bit target. -/
def isizeMax : Int := 2 ^ 63 - 1

/-- `usize::saturating_add` (Nat subtraction is already saturating, so only
addition needs an explicit clamp). -/
def satAdd (a b : Nat) : Nat := min (a + b) usizeMax

/-- The `Slice` struct from src/slice.rs: `begin: isize`, `end: Option<isize>`.
`end` is a Lean keyword, so the field is spelled `end_`. -/
structure Slice where
  begin : Int
  end_ : Option Int
deriving DecidableEq

/-- A digit-only check for a character list: nonempty and all ASCII digits.
This is the body requirement of Rust's integer `from_str` after the sign. -/
def digitsOk (cs : List Char) : Bool := !cs.isEmpty && cs.all Char.isDigit

/-- Base-10 value of a digit list, as accumulated by Rust's `from_str`. -/
def digitsVal (cs : List Char) : Nat :=
  cs.foldl (fun a c => a * 10 + (c.toNat - 48)) 0

/-- Model of Rust's `str::parse::<isize>()` (on the 64-bit target): an
optional leading `+` or `-`, then one or more ASCII digits, with the value
required to fit in the `isize` range; anything else is an error. -/
def parseIsize (cs : List Char) : Option Int :=
  if cs.head? = some '-' then
    if digitsOk cs.tail && digitsVal cs.tail ≤ 2 ^ 63 then
      some (-(digitsVal cs.tail : Int))
    else none
  else if cs.head? = some '+' then
    if digitsOk cs.tail && digitsVal cs.tail ≤ 2 ^ 63 - 1 then
      some (digitsVal cs.tail : Int)
    else none
  else
    if digitsOk cs && digitsVal cs ≤ 2 ^ 63 - 1 then some (digitsVal cs : Int)
    else none

/-- Model of Rust's `str::split(c)`: `n` separators yield `n + 1` parts. -/
def splitChar (sep : Char) : List Char → List (List Char)
  | [] => [[]]
  | c :: rest =>
    if c = sep then [] :: splitChar sep rest
    else
      match splitChar sep rest with
      | [] => [[c]]
      | p :: ps => (c :: p) :: ps

/-- The begin part of `Slice::from_string`: empty means 0, otherwise it
must parse as an `isize`. -/
def parseBeginPart (p : List Char) : Except String Int :=
  if p.isEmpty then Except.ok 0
  else
    match parseIsize p with
    | some v => Except.ok v
    | none => Except.error "Invalid slice starting point"

/-- The end part of `Slice::from_string`: empty means absent, otherwise it
must parse as an `isize`. -/
def parseEndPart (p : List Char) : Except String (Option Int) :=
  if p.isEmpty then Except.ok none
  else
    match parseIsize p with
    | some v => Except.ok (some v)
    | none => Except.error "Invalid slice ending point"

/-- `Slice::from_string` from src/slice.rs: split on `:`, require exactly
two parts, reject two empty parts, then parse each nonempty part. -/
def Slice.fromString (cs : List Char) : Except String Slice :=
  match splitChar ':' cs with
  | [p0, p1] =>
    if p0.isEmpty && p1.isEmpty then Except.error "Slice cannot be empty"
    else
      match parseBeginPart p0 with
      | Except.error e => Except.error e
      | Except.ok b =>
        match parseEndPart p1 with
        | Except.error e => Except.error e
        | Except.ok en => Except.ok { begin := b, end_ := en }
  | _ => Except.error "Invalid slice"

/-- Strip one trailing carriage return, as `BufRead::lines` does after it
strips the line feed. -/
def stripCr (l : List Char) : List Char :=
  if l.getLast? = some '\r' then l.dropLast else l

/-- The accumulator loop behind `BufRead::lines()`: `acc` holds the current
chunk reversed; at each LF the chunk is emitted with one trailing CR
stripped; a nonempty final fragment is emitted as-is. -/
def linesAux (acc : List Char) : List Char → List (List Char)
  | [] => if acc.isEmpty then [] else [acc.reverse]
  | c :: rest =>
    if c = '\n' then stripCr acc.reverse :: linesAux [] rest
    else linesAux (c :: acc) rest

/-- Model of Rust's `BufRead::lines()` on a byte stream: split at each LF,
strip one trailing CR from each LF-terminated chunk, and keep a nonempty
final fragment as-is (its trailing CR, if any, is not stripped because no
LF was stripped first). -/
def linesOf (cs : List Char) : List (List Char) := linesAux [] cs

/-- The bytes produced by `writeln!` over a list of lines: each line is
followed by a single LF. -/
def joinLf : List (List Char) → List Char
  | [] => []
  | l :: rest => l ++ '\n' :: joinLf rest

/-- Every carriage return in the stream is immediately followed by a line
feed (so the stream uses only well-formed CRLF or LF line endings). -/
def crOk : List Char → Bool
  | [] => true
  | c :: rest => (c != '\r' || decide (rest.head? = some '\n')) && crOk rest

/-- The mutable loop state of `slice_input`: the FIFO `buf`, the lines
written so far, and `lines_processed`. -/
structure LoopState where
  buf : List (List Char)
  out : List (List Char)
  processed : Nat
deriving DecidableEq

/-- `skip_count` in `slice_input`: `begin` when positive, else 0. -/
def skipCount (s : Slice) : Nat := if 0 < s.begin then s.begin.toNat else 0

/-- `stop_count` in `slice_input`: defaults to `usize::MAX`; a present
non-negative `end` makes it `(end as usize).saturating_sub(skip_count)`. -/
def stopCount (s : Slice) : Nat :=
  match s.end_ with
  | some e => if 0 ≤ e then e.toNat - skipCount s else usizeMax
  | none => usizeMax

/-- `buf_size` in `slice_input`: a present negative `end` sets it to `|end|`,
and a negative `begin` then overrides it with `|begin|`. -/
def bufSize (s : Slice) : Nat :=
  let b0 : Nat :=
    match s.end_ with
    | some e => if 0 ≤ e then 0 else (-e).toNat
    | none => 0
  if s.begin < 0 then (-s.begin).toNat else b0

/-- `PrintMode` in `slice_input`, as a flag: `true` is `Buf` (chosen when
`begin < 0`), `false` is `Overflow`. -/
def bufMode (s : Slice) : Bool := decide (s.begin < 0)

/-- One iteration of the `for maybe_line in ...` loop of `slice_input`,
without I/O failures: emit directly when `buf_size == 0`, otherwise rotate
the FIFO, emitting the evicted front only in `Overflow` mode. -/
def sliceStep (bsz : Nat) (m : Bool) (st : LoopState) (line : List Char) : LoopState :=
  if bsz = 0 then
    { st with out := st.out ++ [line], processed := st.processed + 1 }
  else
    let st1 :=
      if st.buf.length = bsz then
        match st.buf with
        | [] => st
        | front :: rest =>
          if m then { st with buf := rest }
          else { st with buf := rest, out := st.out ++ [front] }
      else st
    { st1 with buf := st1.buf ++ [line], processed := st1.processed + 1 }

/-- The final trim applied to the FIFO in `Buf` mode, from the tail of
`slice_input`: a negative `end` drops its magnitude (clamped), a
non-negative `end` drops `lines_processed.saturating_sub(stop_count)`
(clamped), an absent `end` drops nothing. `truncate n` keeps the first `n`
elements, i.e. `List.take`. -/
def finalTrim (s : Slice) (stop : Nat) (buf : List (List Char)) (processed : Nat) :
    List (List Char) :=
  match s.end_ with
  | some e =>
    if e < 0 then buf.take (buf.length - min buf.length (-e).toNat)
    else buf.take (buf.length - min buf.length (processed - stop))
  | none => buf

/-- The list of lines the loop of `slice_input` actually iterates:
`input.lines().skip(skip_count).take(stop_count.saturating_add(buf_size))`. -/
def procList (s : Slice) (lines : List (List Char)) : List (List Char) :=
  (lines.drop (skipCount s)).take (satAdd (stopCount s) (bufSize s))

/-- `slice_input` from src/slice.rs on an already-split list of lines, with
no I/O failures: returns the emitted lines in order. -/
def sliceInput (s : Slice) (lines : List (List Char)) : List (List Char) :=
  let st := (procList s lines).foldl (sliceStep (bufSize s) (bufMode s)) ⟨[], [], 0⟩
  if s.begin < 0 then st.out ++ finalTrim s (stopCount s) st.buf st.processed
  else st.out

/-- `slice_input` at the byte level: split the input bytes into lines as
`BufRead::lines` does, slice, and join the emitted lines with LF as
`writeln!` does. -/
def sliceBytes (s : Slice) (bytes : List Char) : List Char :=
  joinLf (sliceInput s (linesOf bytes))

/-- The window size as stated by the spec: `|begin|` when `begin < 0`,
`|end|` when `begin ≥ 0` and `end` is present and negative, and 0
otherwise. -/
def windowSize (s : Slice) : Nat :=
  if s.begin < 0 then (-s.begin).toNat
  else
    match s.end_ with
    | some e => if e < 0 then (-e).toNat else 0
    | none => 0

/-- The integer grammar as the claim about `Slice::from_string` states it:
a base-10 integer with an optional leading `-` only. -/
def specIntNoPlus (cs : List Char) : Bool :=
  if cs.head? = some '-' then digitsOk cs.tail else digitsOk cs

/-- The integer grammar the code actually accepts: an optional leading `-`
or `+`, digits, and a value within the `isize` range. -/
def specIntFull (cs : List Char) : Bool :=
  if cs.head? = some '-' then digitsOk cs.tail && digitsVal cs.tail ≤ 2 ^ 63
  else if cs.head? = some '+' then digitsOk cs.tail && digitsVal cs.tail ≤ 2 ^ 63 - 1
  else digitsOk cs && digitsVal cs ≤ 2 ^ 63 - 1

/-- The statement of the claim about `Slice::from_string`, at one input:
parsing succeeds iff the text splits at a unique colon into two parts, not
both empty, each nonempty part matching the minus-only integer grammar. -/
def claimSixHolds (cs : List Char) : Prop :=
  (∃ sl, Slice.fromString cs = Except.ok sl) ↔
    ∃ a b, cs = a ++ ':' :: b ∧ ':' ∉ a ∧ ':' ∉ b ∧ ¬(a = [] ∧ b = []) ∧
      (a = [] ∨ specIntNoPlus a = true) ∧ (b = [] ∨ specIntNoPlus b = true)

/-- Which side of the I/O failed, the information carried by the
`io::Result` that `slice_input` propagates with `?`. -/
inductive IoSide where
  | read
  | write
deriving DecidableEq

/-- Loop state of the fallible model: the FIFO, the lines successfully
written to the sink so far, and `lines_processed`. -/
structure RunState where
  buf : List (List Char)
  written : List (List Char)
  processed : Nat
deriving DecidableEq

/-- A sink whose every write succeeds. -/
def alwaysOk : Nat → Bool := fun _ => true

/-- One `writeln!` against a sink that may fail: `wf n` says whether the
`n`-th write (0-indexed) succeeds. A failed write appends nothing. -/
def writeLineE (wf : Nat → Bool) (st : RunState) (l : List Char) :
    Except IoSide RunState :=
  if wf st.written.length then Except.ok { st with written := st.written ++ [l] }
  else Except.error IoSide.write

/-- One loop iteration of `slice_input` in the fallible model. -/
def stepE (wf : Nat → Bool) (bsz : Nat) (m : Bool) (st : RunState) (l : List Char) :
    Except IoSide RunState :=
  if bsz = 0 then
    match writeLineE wf st l with
    | Except.error side => Except.error side
    | Except.ok st1 => Except.ok { st1 with processed := st1.processed + 1 }
  else
    let popped : Except IoSide RunState :=
      if st.buf.length = bsz then
        match st.buf with
        | [] => Except.ok st
        | front :: rest =>
          if m then Except.ok { st with buf := rest }
          else writeLineE wf { st with buf := rest } front
      else Except.ok st
    match popped with
    | Except.error side => Except.error side
    | Except.ok st1 =>
      Except.ok { st1 with buf := st1.buf ++ [l], processed := st1.processed + 1 }

/-- The `for maybe_line in ...` loop in the fallible model: the input is a
list of read results; `maybe_line?` turns a read error into an immediate
return carrying the lines written so far. -/
def runLoop (wf : Nat → Bool) (bsz : Nat) (m : Bool) (st : RunState) :
    List (Except Unit (List Char)) → Except (IoSide × List (List Char)) RunState
  | [] => Except.ok st
  | Except.error _ :: _ => Except.error (IoSide.read, st.written)
  | Except.ok l :: rest =>
    match stepE wf bsz m st l with
    | Except.error side => Except.error (side, st.written)
    | Except.ok st1 => runLoop wf bsz m st1 rest

/-- Writing the trimmed FIFO to the sink, stopping at the first failed
write: the final `for line in buf` loop of `slice_input`. -/
def writeAllE (wf : Nat → Bool) (written : List (List Char)) :
    List (List Char) → List (List Char) × Option IoSide
  | [] => (written, none)
  | l :: rest =>
    if wf written.length then writeAllE wf (written ++ [l]) rest
    else (written, some IoSide.write)

/-- The written lines carried by either outcome of `runLoop`. -/
def writtenOf : Except (IoSide × List (List Char)) RunState → List (List Char)
  | Except.error (_, w) => w
  | Except.ok st => st.written

/-- `slice_input` in the fallible model: the result is the list of lines
that reached the sink, together with the failure (if any) identifying the
faulty side. Note the `skip(skip_count)` adapter drops the first
`skip_count` read results whether they are lines or errors, exactly as
Rust's `Iterator::skip` does on `io::Lines`. -/
def sliceInputE (s : Slice) (wf : Nat → Bool) (inp : List (Except Unit (List Char))) :
    List (List Char) × Option IoSide :=
  let xs := (inp.drop (skipCount s)).take (satAdd (stopCount s) (bufSize s))
  match runLoop wf (bufSize s) (bufMode s) ⟨[], [], 0⟩ xs with
  | Except.error (side, w) => (w, some side)
  | Except.ok st =>
    if s.begin < 0 then writeAllE wf st.written (finalTrim s (stopCount s) st.buf st.processed)
    else (st.written, none)

/-- One loop iteration with every potential panic modeled as `none`:
`buf.pop_front().unwrap()` is a panic when the FIFO is empty. -/
def sliceStepChecked (bsz : Nat) (m : Bool) (st : LoopState) (l : List Char) :
    Option LoopState :=
  if bsz = 0 then
    some { st with out := st.out ++ [l], processed := st.processed + 1 }
  else
    let popped : Option LoopState :=
      if st.buf.length = bsz then
        match st.buf with
        | [] => none
        | front :: rest =>
          if m then some { st with buf := rest }
          else some { st with buf := rest, out := st.out ++ [front] }
      else some st
    popped.map fun st1 => { st1 with buf := st1.buf ++ [l], processed := st1.processed + 1 }

/-- The final trim with every potential panic modeled as `none`: the
negation `-slice_end` overflows at `isize::MIN`, and the subtraction
`buf.len() - min(buf.len(), k)` would panic if the `min` exceeded the
length. -/
def checkedTrim (s : Slice) (stop : Nat) (buf : List (List Char)) (processed : Nat) :
    Option (List (List Char)) :=
  match s.end_ with
  | some e =>
    if e < 0 then
      if e = isizeMin then none
      else if min buf.length (-e).toNat ≤ buf.length then
        some (buf.take (buf.length - min buf.length (-e).toNat))
      else none
    else if min buf.length (processed - stop) ≤ buf.length then
      some (buf.take (buf.length - min buf.length (processed - stop)))
    else none
  | none => some buf

/-- `slice_input` with every potential panic modeled as `none`: the
negations `-slice_end` and `-slice.begin` overflow at `isize::MIN`, the
`unwrap` needs a nonempty FIFO, and the truncation subtraction must not
underflow. `none` means the Rust code panics. -/
def sliceInputChecked (s : Slice) (lines : List (List Char)) :
    Option (List (List Char)) := do
  let _bszEnd ← (match s.end_ with
    | some e =>
      if e < 0 then (if e = isizeMin then none else some ((-e).toNat))
      else some 0
    | none => some (0 : Nat))
  let _bszBegin ← (if s.begin < 0 then
      (if s.begin = isizeMin then none else some ((-s.begin).toNat))
    else some (0 : Nat))
  let st ← (procList s lines).foldlM (sliceStepChecked (bufSize s) (bufMode s))
    (⟨[], [], 0⟩ : LoopState)
  if s.begin < 0 then do
    let tr ← checkedTrim s (stopCount s) st.buf st.processed
    pure (st.out ++ tr)
  else pure st.out

/-! ### Characterization of the main loop -/

theorem foldl_sliceStep_zero (m : Bool) (xs : List (List Char)) (b o : List (List Char))
    (p : Nat) : xs.foldl (sliceStep 0 m) ⟨b, o, p⟩ = ⟨b, o ++ xs, p + xs.length⟩ := by
  induction xs generalizing o p with
  | nil => simp
  | cons x xs ih =>
    have hstep : sliceStep 0 m ⟨b, o, p⟩ x = ⟨b, o ++ [x], p + 1⟩ := by
      simp [sliceStep]
    rw [List.foldl_cons, hstep, ih]
    simp [LoopState.mk.injEq]
    omega

theorem foldl_sliceStep_buf (w : Nat) (hw : w ≠ 0) (xs : List (List Char)) :
    ∀ (b o : List (List Char)) (p : Nat), b.length ≤ w →
      xs.foldl (sliceStep w true) ⟨b, o, p⟩ =
        ⟨(b ++ xs).drop (b.length + xs.length - w), o, p + xs.length⟩ := by
  induction xs with
  | nil =>
    intro b o p hb
    simp [Nat.sub_eq_zero_of_le hb]
  | cons x xs ih =>
    intro b o p hb
    by_cases hfull : b.length = w
    · cases b with
      | nil => exact absurd hfull.symm hw
      | cons f r =>
        have hstep : sliceStep w true ⟨f :: r, o, p⟩ x = ⟨r ++ [x], o, p + 1⟩ := by
          simp only [sliceStep, if_neg hw, hfull, if_pos rfl, if_pos]
        have hr : r.length + 1 = w := by simpa using hfull
        rw [List.foldl_cons, hstep, ih (r ++ [x]) o (p + 1) (by simp; omega)]
        have e1 : (r ++ [x]).length + xs.length - w = xs.length := by simp; omega
        have e2 : (f :: r).length + (x :: xs).length - w = xs.length + 1 := by
          simp; omega
        rw [e1, e2]
        simp [LoopState.mk.injEq, List.append_assoc]
        omega
    · have hlt : b.length < w := lt_of_le_of_ne hb hfull
      have hstep : sliceStep w true ⟨b, o, p⟩ x = ⟨b ++ [x], o, p + 1⟩ := by
        simp only [sliceStep, if_neg hw, if_neg hfull]
      rw [List.foldl_cons, hstep, ih (b ++ [x]) o (p + 1) (by simp; omega)]
      have e1 : (b ++ [x]).length + xs.length - w = b.length + (x :: xs).length - w := by
        simp; omega
      rw [e1]
      simp [LoopState.mk.injEq, List.append_assoc]
      omega

theorem foldl_sliceStep_direct (w : Nat) (hw : w ≠ 0) (xs : List (List Char)) :
    ∀ (b o : List (List Char)) (p : Nat), b.length ≤ w →
      xs.foldl (sliceStep w false) ⟨b, o, p⟩ =
        ⟨(b ++ xs).drop (b.length + xs.length - w),
         o ++ (b ++ xs).take (b.length + xs.length - w), p + xs.length⟩ := by
  induction xs with
  | nil =>
    intro b o p hb
    simp [Nat.sub_eq_zero_of_le hb]
  | cons x xs ih =>
    intro b o p hb
    by_cases hfull : b.length = w
    · cases b with
      | nil => exact absurd hfull.symm hw
      | cons f r =>
        have hstep : sliceStep w false ⟨f :: r, o, p⟩ x =
            ⟨r ++ [x], o ++ [f], p + 1⟩ := by
          simp only [sliceStep, if_neg hw, hfull, if_pos rfl]
          simp
        have hr : r.length + 1 = w := by simpa using hfull
        rw [List.foldl_cons, hstep, ih (r ++ [x]) (o ++ [f]) (p + 1) (by simp; omega)]
        have e1 : (r ++ [x]).length + xs.length - w = xs.length := by simp; omega
        have e2 : (f :: r).length + (x :: xs).length - w = xs.length + 1 := by
          simp; omega
        rw [e1, e2]
        simp [LoopState.mk.injEq, List.append_assoc]
        omega
    · have hlt : b.length < w := lt_of_le_of_ne hb hfull
      have hstep : sliceStep w false ⟨b, o, p⟩ x = ⟨b ++ [x], o, p + 1⟩ := by
        simp only [sliceStep, if_neg hw, if_neg hfull]
      rw [List.foldl_cons, hstep, ih (b ++ [x]) o (p + 1) (by simp; omega)]
      have e1 : (b ++ [x]).length + xs.length - w = b.length + (x :: xs).length - w := by
        simp; omega
      rw [e1]
      simp [LoopState.mk.injEq, List.append_assoc]
      omega

theorem bufSize_pos_of_begin_neg (s : Slice) (h : s.begin < 0) : bufSize s ≠ 0 := by
  unfold bufSize
  simp only [if_pos h]
  omega

theorem bufMode_true (s : Slice) (h : s.begin < 0) : bufMode s = true := by
  simp [bufMode, h]

theorem bufMode_false (s : Slice) (h : ¬s.begin < 0) : bufMode s = false := by
  simp [bufMode, h]

/-- Direct mode without a window: the loop emits exactly the lines it
iterates. -/
theorem sliceInput_direct_nobuf (s : Slice) (L : List (List Char))
    (hbegin : ¬s.begin < 0) (hbsz : bufSize s = 0) :
    sliceInput s L = procList s L := by
  unfold sliceInput
  rw [bufMode_false s hbegin, hbsz, foldl_sliceStep_zero]
  simp [hbegin]

/-- Direct mode with a trailing-exclusion window: the loop emits the
iterated lines except the last `buf_size` of them, and the FIFO is
discarded. -/
theorem sliceInput_direct_buf (s : Slice) (L : List (List Char))
    (hbegin : ¬s.begin < 0) (hbsz : bufSize s ≠ 0) :
    sliceInput s L = (procList s L).take ((procList s L).length - bufSize s) := by
  unfold sliceInput
  rw [bufMode_false s hbegin, foldl_sliceStep_direct (bufSize s) hbsz _ [] [] 0 (by simp)]
  simp [hbegin]

/-- Trailing mode: nothing is emitted during the loop; at the end the FIFO
holds the last `buf_size` iterated lines and is trimmed before emission. -/
theorem sliceInput_bufmode (s : Slice) (L : List (List Char)) (hbegin : s.begin < 0) :
    sliceInput s L =
      finalTrim s (stopCount s)
        ((procList s L).drop ((procList s L).length - bufSize s))
        (procList s L).length := by
  unfold sliceInput
  rw [bufMode_true s hbegin,
    foldl_sliceStep_buf (bufSize s) (bufSize_pos_of_begin_neg s hbegin) _ [] [] 0 (by simp)]
  simp [hbegin]

theorem skipCount_of_nonneg (b : Int) (en : Option Int) (hb : 0 ≤ b) :
    skipCount ⟨b, en⟩ = b.toNat := by
  unfold skipCount
  dsimp only
  split <;> omega

theorem skipCount_of_neg (b : Int) (en : Option Int) (hb : b < 0) :
    skipCount ⟨b, en⟩ = 0 := by
  unfold skipCount
  dsimp only
  split <;> omega

theorem bufSize_of_neg_begin (b : Int) (en : Option Int) (hb : b < 0) :
    bufSize ⟨b, en⟩ = (-b).toNat := by
  simp only [bufSize]
  rw [if_pos hb]

/-- C1: for non-negative `begin ≤ end` (within the `isize` range of the
struct's fields), `slice_input` emits exactly the lines at 0-indexed
positions `[begin, end)` clipped to `[0, N)`, in order. -/
theorem c1_direct_range (b e : Int) (L : List (List Char)) (hb : 0 ≤ b) (hbe : b ≤ e)
    (he : e ≤ isizeMax) :
    sliceInput ⟨b, some e⟩ L = (L.take e.toNat).drop b.toNat := by
  have hbegin : ¬(⟨b, some e⟩ : Slice).begin < 0 := by simpa using hb
  have he0 : (0 : Int) ≤ e := le_trans hb hbe
  have hbsz : bufSize ⟨b, some e⟩ = 0 := by
    simp only [bufSize]
    rw [if_neg hbegin]
    simp [he0]
  rw [sliceInput_direct_nobuf _ _ hbegin hbsz]
  unfold procList
  rw [hbsz, skipCount_of_nonneg b (some e) hb]
  have hstop : stopCount ⟨b, some e⟩ = e.toNat - b.toNat := by
    unfold stopCount
    simp only [he0, if_pos]
    rw [skipCount_of_nonneg b (some e) hb]
  rw [hstop]
  have hsat : satAdd (e.toNat - b.toNat) 0 = e.toNat - b.toNat := by
    unfold satAdd usizeMax
    have : e.toNat ≤ 2 ^ 63 - 1 := by unfold isizeMax at he; omega
    omega
  rw [hsat, List.drop_take]

/-- C1 witness: slicing `1:3` out of four lines yields lines 1 and 2. -/
theorem c1_witness : sliceInput ⟨1, some 3⟩ [['a'], ['b'], ['c'], ['d']] = [['b'], ['c']] := by
  rw [c1_direct_range 1 3 [['a'], ['b'], ['c'], ['d']] (by decide) (by decide) (by decide)]
  rfl

/-- C2: for negative `begin` and absent `end`, `slice_input` emits the last
`|begin|` lines, or the whole input when it is shorter than that. -/
theorem c2_trailing_tail (b : Int) (L : List (List Char)) (hb : b < 0)
    (hL : L.length ≤ usizeMax) :
    sliceInput ⟨b, none⟩ L = L.drop (L.length - (-b).toNat) := by
  rw [sliceInput_bufmode _ _ hb]
  have hproc : procList ⟨b, none⟩ L = L := by
    unfold procList
    rw [skipCount_of_neg b none hb]
    have hstop : stopCount ⟨b, none⟩ = usizeMax := rfl
    rw [hstop]
    have hsat : satAdd usizeMax (bufSize ⟨b, none⟩) = usizeMax := by
      unfold satAdd
      omega
    rw [hsat]
    simpa using List.take_of_length_le hL
  rw [hproc, bufSize_of_neg_begin b none hb]
  rfl

/-- C2 witness: the last two of three lines. -/
theorem c2_witness : sliceInput ⟨-2, none⟩ [['a'], ['b'], ['c']] = [['b'], ['c']] := by
  rw [c2_trailing_tail (-2) [['a'], ['b'], ['c']] (by decide) (by decide)]
  rfl

/-- C3: with negative `begin` and present non-negative `end`, the FIFO at
end of stream is the tail window of the iterated lines, and it is trimmed
by dropping from its back `min(FIFO length, total_processed - stop_count)`
elements with `stop_count = max(0, end) = end`; Scenario D gives `b, c`. -/
theorem c3_trailing_nonneg_end :
    (∀ (b e : Int) (L xs fifo : List (List Char)), b < 0 → isizeMin ≤ b → 0 ≤ e →
        e ≤ isizeMax → xs = L.take (e.toNat + (-b).toNat) →
        fifo = xs.drop (xs.length - (-b).toNat) →
        sliceInput ⟨b, some e⟩ L =
          fifo.take (fifo.length - min fifo.length (xs.length - e.toNat))) ∧
    sliceInput ⟨-4, some 3⟩ [['a'], ['b'], ['c'], ['d'], ['e']] = [['b'], ['c']] := by
  constructor
  · intro b e L xs fifo hb hbmin he hemax hxs hfifo
    rw [sliceInput_bufmode _ _ hb]
    have hproc : procList ⟨b, some e⟩ L = xs := by
      unfold procList
      rw [skipCount_of_neg b (some e) hb, bufSize_of_neg_begin b (some e) hb]
      have hstop : stopCount ⟨b, some e⟩ = e.toNat := by
        unfold stopCount
        dsimp only
        rw [if_pos he, skipCount_of_neg b (some e) hb]
        omega
      rw [hstop]
      have hsat : satAdd e.toNat (-b).toNat = e.toNat + (-b).toNat := by
        unfold satAdd usizeMax
        have h1 : e.toNat ≤ 2 ^ 63 - 1 := by unfold isizeMax at hemax; omega
        have h2 : (-b).toNat ≤ 2 ^ 63 := by unfold isizeMin at hbmin; omega
        omega
      rw [hsat, hxs]
      simp
    rw [hproc, bufSize_of_neg_begin b (some e) hb, ← hfifo]
    have hstop : stopCount ⟨b, some e⟩ = e.toNat := by
      unfold stopCount
      dsimp only
      rw [if_pos he, skipCount_of_neg b (some e) hb]
      omega
    unfold finalTrim
    dsimp only
    rw [if_neg (by omega), hstop]
  · decide

/-- C3 witness: the general trim formula at Scenario D's input. -/
theorem c3_witness :
    sliceInput ⟨-4, some 3⟩ [['a'], ['b'], ['c'], ['d'], ['e']] = [['b'], ['c']] := by
  have h := c3_trailing_nonneg_end.1 (-4) 3 [['a'], ['b'], ['c'], ['d'], ['e']]
    ([['a'], ['b'], ['c'], ['d'], ['e']].take ((3 : Int).toNat + (-(-4 : Int)).toNat))
    (([['a'], ['b'], ['c'], ['d'], ['e']].take ((3 : Int).toNat + (-(-4 : Int)).toNat)).drop
      (([['a'], ['b'], ['c'], ['d'], ['e']].take ((3 : Int).toNat + (-(-4 : Int)).toNat)).length -
        (-(-4 : Int)).toNat))
    (by decide) (by decide) (by decide) (by decide) rfl rfl
  rw [h]
  rfl

/-- C4: with both boundaries negative the window is governed by `|begin|`,
and whenever `|end| ≥ |begin|` — the boundary `|end| = |begin|` included —
the output is empty for every input. -/
theorem c4_both_negative :
    (∀ (b e : Int) (L : List (List Char)), b < 0 → e ≤ b →
        sliceInput ⟨b, some e⟩ L = []) ∧
    ∀ b e : Int, b < 0 → e < 0 → bufSize ⟨b, some e⟩ = (-b).toNat := by
  constructor
  · intro b e L hb he
    have heneg : e < 0 := lt_of_le_of_lt he hb
    rw [sliceInput_bufmode _ _ hb]
    unfold finalTrim
    dsimp only
    rw [if_pos heneg, bufSize_of_neg_begin b (some e) hb]
    set l := procList ⟨b, some e⟩ L
    have hlen : (l.drop (l.length - (-b).toNat)).length ≤ (-b).toNat := by
      simp
      omega
    have hmono : (-b).toNat ≤ (-e).toNat := by omega
    have hmin : min (l.drop (l.length - (-b).toNat)).length (-e).toNat =
        (l.drop (l.length - (-b).toNat)).length := by omega
    rw [hmin]
    simp
  · intro b e hb he
    exact bufSize_of_neg_begin b (some e) hb

/-- C4 witness: `-2:-2` on three lines is empty, and its window is 2. -/
theorem c4_witness :
    sliceInput ⟨-2, some (-2)⟩ [['a'], ['b'], ['c']] = [] ∧
      bufSize ⟨-2, some (-2)⟩ = (-(-2 : Int)).toNat := by
  exact ⟨c4_both_negative.1 (-2) (-2) [['a'], ['b'], ['c']] (by decide) (by decide),
    c4_both_negative.2 (-2) (-2) (by decide) (by decide)⟩

theorem sliceStep_buf_le (w : Nat) (m : Bool) (st : LoopState) (x : List Char)
    (h : st.buf.length ≤ w) : (sliceStep w m st x).buf.length ≤ w := by
  unfold sliceStep
  by_cases h0 : w = 0
  · subst h0
    simpa using h
  · rw [if_neg h0]
    by_cases hfull : st.buf.length = w
    · rw [if_pos hfull]
      cases hbuf : st.buf with
      | nil => rw [hbuf] at hfull; simp at hfull; omega
      | cons f r =>
        rw [hbuf] at hfull
        simp at hfull
        cases m <;> simp <;> omega
    · rw [if_neg hfull]
      simp
      omega

theorem foldl_sliceStep_buf_le (w : Nat) (m : Bool) (xs : List (List Char)) :
    ∀ st : LoopState, st.buf.length ≤ w →
      (xs.foldl (sliceStep w m) st).buf.length ≤ w := by
  induction xs with
  | nil => intro st h; simpa using h
  | cons x xs ih =>
    intro st h
    rw [List.foldl_cons]
    exact ih _ (sliceStep_buf_le w m st x h)

/-- C5: at every point of the loop — after any number `k` of iterations —
the FIFO holds at most `window_size` lines, where `window_size` is
`|begin|` when `begin < 0`, `|end|` when `begin ≥ 0` and `end < 0`, and 0
otherwise; the final trim only ever shrinks the FIFO; and the code's
`buf_size` equals that `window_size`. -/
theorem c5_fifo_bounded :
    (∀ (s : Slice) (L : List (List Char)) (k : Nat),
        (((procList s L).take k).foldl (sliceStep (bufSize s) (bufMode s))
            ⟨[], [], 0⟩).buf.length ≤ windowSize s) ∧
    (∀ (s : Slice) (stop : Nat) (buf : List (List Char)) (p : Nat),
        (finalTrim s stop buf p).length ≤ buf.length) ∧
    ∀ s : Slice, bufSize s = windowSize s := by
  have hbw : ∀ s : Slice, bufSize s = windowSize s := by
    intro s
    unfold bufSize windowSize
    by_cases hb : s.begin < 0
    · rw [if_pos hb, if_pos hb]
    · rw [if_neg hb, if_neg hb]
      cases he : s.end_ with
      | none => rfl
      | some e =>
        dsimp only
        by_cases h0 : (0 : Int) ≤ e
        · rw [if_pos h0, if_neg (by omega)]
        · rw [if_neg h0, if_pos (by omega)]
  refine ⟨fun s L k => ?_, fun s stop buf p => ?_, hbw⟩
  · rw [← hbw s]
    exact foldl_sliceStep_buf_le (bufSize s) (bufMode s) _ _ (by simp)
  · unfold finalTrim
    cases s.end_ with
    | none => exact le_rfl
    | some e =>
      dsimp only
      split
      · simp
      · simp

theorem sliceStepChecked_eq (w : Nat) (m : Bool) (st : LoopState) (x : List Char) :
    sliceStepChecked w m st x = some (sliceStep w m st x) := by
  unfold sliceStepChecked sliceStep
  by_cases h0 : w = 0
  · rw [if_pos h0, if_pos h0]
  · rw [if_neg h0, if_neg h0]
    by_cases hfull : st.buf.length = w
    · rw [if_pos hfull, if_pos hfull]
      cases hbuf : st.buf with
      | nil => rw [hbuf] at hfull; simp at hfull; omega
      | cons f r => cases m <;> simp
    · rw [if_neg hfull, if_neg hfull]
      simp

theorem foldlM_sliceStepChecked (w : Nat) (m : Bool) (xs : List (List Char)) :
    ∀ st : LoopState,
      xs.foldlM (sliceStepChecked w m) st = some (xs.foldl (sliceStep w m) st) := by
  induction xs with
  | nil => intro st; rfl
  | cons x xs ih =>
    intro st
    rw [List.foldlM_cons, sliceStepChecked_eq]
    simpa using ih (sliceStep w m st x)

theorem checkedTrim_eq (s : Slice) (stop : Nat) (buf : List (List Char)) (processed : Nat)
    (he : ∀ e, s.end_ = some e → isizeMin < e) :
    checkedTrim s stop buf processed = some (finalTrim s stop buf processed) := by
  unfold checkedTrim finalTrim
  cases hen : s.end_ with
  | none => rfl
  | some e =>
    dsimp only
    by_cases h0 : e < 0
    · rw [if_pos h0, if_pos h0, if_neg (by have := he e hen; omega),
        if_pos (Nat.min_le_left _ _)]
    · rw [if_neg h0, if_neg h0, if_pos (Nat.min_le_left _ _)]

/-- C10: when `begin` and any present `end` exceed `isize::MIN`,
`slice_input` never panics — the `unwrap` always sees a nonempty FIFO, the
trim subtraction never underflows thanks to the `min` clamp, and the
negations do not overflow — and the checked run returns exactly the pure
result; at `begin = isize::MIN` the negation overflow makes the checked
run panic, so the precondition is necessary. -/
theorem c10_no_panic :
    (∀ (s : Slice) (L : List (List Char)), isizeMin < s.begin →
        (∀ e, s.end_ = some e → isizeMin < e) →
        sliceInputChecked s L = some (sliceInput s L)) ∧
    sliceInputChecked ⟨isizeMin, none⟩ [['a']] = none := by
  constructor
  · intro s L hb he
    obtain ⟨v1, hv1⟩ : ∃ v1, (match s.end_ with
        | some e => if e < 0 then (if e = isizeMin then none else some ((-e).toNat)) else some 0
        | none => some (0 : Nat)) = some v1 := by
      cases hen : s.end_ with
      | none => exact ⟨0, rfl⟩
      | some e =>
        dsimp only
        by_cases h0 : e < 0
        · rw [if_pos h0, if_neg (by have := he e hen; omega)]
          exact ⟨_, rfl⟩
        · rw [if_neg h0]
          exact ⟨_, rfl⟩
    obtain ⟨v2, hv2⟩ : ∃ v2, (if s.begin < 0 then
        (if s.begin = isizeMin then none else some ((-s.begin).toNat))
      else some (0 : Nat)) = some v2 := by
      by_cases h0 : s.begin < 0
      · rw [if_pos h0, if_neg (by omega)]
        exact ⟨_, rfl⟩
      · rw [if_neg h0]
        exact ⟨_, rfl⟩
    unfold sliceInputChecked sliceInput
    rw [hv1, hv2]
    simp only [Option.bind_eq_bind, Option.some_bind, foldlM_sliceStepChecked]
    by_cases hbneg : s.begin < 0
    · rw [if_pos hbneg, if_pos hbneg, checkedTrim_eq s _ _ _ he]
      rfl
    · rw [if_neg hbneg, if_neg hbneg]
      rfl
  · rfl

/-- C10 witness: a checked run with in-range boundaries succeeds and agrees
with the pure model. -/
theorem c10_witness :
    sliceInputChecked ⟨-1, some (-1)⟩ [['a'], ['b']] =
      some (sliceInput ⟨-1, some (-1)⟩ [['a'], ['b']]) :=
  c10_no_panic.1 ⟨-1, some (-1)⟩ [['a'], ['b']] (by decide)
    (fun e hyp => by cases hyp; decide)

theorem splitChar_ne_nil (sep : Char) (cs : List Char) : splitChar sep cs ≠ [] := by
  induction cs with
  | nil => simp [splitChar]
  | cons c rest ih =>
    simp only [splitChar]
    by_cases h : c = sep
    · simp [h]
    · rw [if_neg h]
      cases hsp : splitChar sep rest with
      | nil => exact absurd hsp ih
      | cons p ps => simp

theorem splitChar_append (sep : Char) (a b : List Char) (ha : sep ∉ a) :
    splitChar sep (a ++ sep :: b) = a :: splitChar sep b := by
  induction a with
  | nil => simp [splitChar]
  | cons c a ih =>
    have hc : c ≠ sep := by intro hcs; exact ha (by simp [hcs])
    have ha' : sep ∉ a := by intro hm; exact ha (by simp [hm])
    rw [List.cons_append]
    simp only [splitChar]
    rw [if_neg hc, ih ha']

theorem splitChar_singleton_of (sep : Char) (cs : List Char) (h : sep ∉ cs) :
    splitChar sep cs = [cs] := by
  induction cs with
  | nil => simp [splitChar]
  | cons c rest ih =>
    have hc : c ≠ sep := by intro hcs; exact h (by simp [hcs])
    have h' : sep ∉ rest := by intro hm; exact h (by simp [hm])
    simp only [splitChar]
    rw [if_neg hc, ih h']

theorem splitChar_eq_singleton (sep : Char) (cs : List Char) :
    ∀ x, splitChar sep cs = [x] → x = cs ∧ sep ∉ cs := by
  induction cs with
  | nil =>
    intro x h
    simp [splitChar] at h
    refine ⟨h, ?_⟩
    simp
  | cons c rest ih =>
    intro x h
    simp only [splitChar] at h
    by_cases hc : c = sep
    · rw [if_pos hc] at h
      simp at h
      exact absurd h.2 (splitChar_ne_nil sep rest)
    · rw [if_neg hc] at h
      cases hsp : splitChar sep rest with
      | nil => exact absurd hsp (splitChar_ne_nil sep rest)
      | cons p ps =>
        rw [hsp] at h
        simp at h
        obtain ⟨hx, hps⟩ := h
        obtain ⟨hp, hmem⟩ := ih p (by rw [hsp, hps])
        subst hp
        refine ⟨hx.symm, ?_⟩
        simp [hc, hmem]
        intro hbad
        exact absurd hbad.symm hc

theorem splitChar_pair_inv (sep : Char) (cs : List Char) :
    ∀ a b, splitChar sep cs = [a, b] → cs = a ++ sep :: b ∧ sep ∉ a ∧ sep ∉ b := by
  induction cs with
  | nil =>
    intro a b h
    simp [splitChar] at h
  | cons c rest ih =>
    intro a b h
    simp only [splitChar] at h
    by_cases hc : c = sep
    · rw [if_pos hc] at h
      simp at h
      obtain ⟨ha, hrest⟩ := h
      obtain ⟨hb, hmem⟩ := splitChar_eq_singleton sep rest b hrest
      subst ha
      subst hb
      subst hc
      simp [hmem]
    · rw [if_neg hc] at h
      cases hsp : splitChar sep rest with
      | nil => exact absurd hsp (splitChar_ne_nil sep rest)
      | cons p ps =>
        rw [hsp] at h
        simp at h
        obtain ⟨ha, hps⟩ := h
        obtain ⟨hrest, hmp, hmb⟩ := ih p b (by rw [hsp, hps])
        subst hrest
        refine ⟨by simp [ha.symm], ?_, hmb⟩
        rw [← ha]
        simp [hmp]
        intro hbad
        exact absurd hbad.symm hc

theorem splitChar_pair_of (sep : Char) (a b : List Char) (ha : sep ∉ a) (hb : sep ∉ b) :
    splitChar sep (a ++ sep :: b) = [a, b] := by
  rw [splitChar_append sep a b ha, splitChar_singleton_of sep b hb]

theorem parseIsize_isSome_eq (cs : List Char) : (parseIsize cs).isSome = specIntFull cs := by
  unfold parseIsize specIntFull
  by_cases h1 : cs.head? = some '-'
  · simp only [if_pos h1]
    split <;> simp_all
  · by_cases h2 : cs.head? = some '+'
    · simp only [if_neg h1, if_pos h2]
      split <;> simp_all
    · simp only [if_neg h1, if_neg h2]
      split <;> simp_all

theorem fromString_pair (a b : List Char) (ha : ':' ∉ a) (hb : ':' ∉ b) :
    Slice.fromString (a ++ ':' :: b) =
      (if a.isEmpty && b.isEmpty then Except.error "Slice cannot be empty"
       else
         match parseBeginPart a with
         | Except.error e => Except.error e
         | Except.ok bv =>
           match parseEndPart b with
           | Except.error e => Except.error e
           | Except.ok en => Except.ok { begin := bv, end_ := en }) := by
  unfold Slice.fromString
  rw [splitChar_pair_of ':' a b ha hb]

theorem parseBeginPart_ok_val (p : List Char) (v : Int) (h : parseBeginPart p = Except.ok v) :
    v = (parseIsize p).getD 0 := by
  unfold parseBeginPart at h
  by_cases hp : p.isEmpty
  · rw [if_pos hp] at h
    have hpe : p = [] := by simpa using hp
    subst hpe
    simp at h
    simp [h.symm, parseIsize, digitsOk]
  · rw [if_neg hp] at h
    cases hpi : parseIsize p with
    | none => rw [hpi] at h; simp at h
    | some w => rw [hpi] at h; simp at h; simp [h.symm]

theorem parseEndPart_ok_val (p : List Char) (v : Option Int)
    (h : parseEndPart p = Except.ok v) : v = parseIsize p := by
  unfold parseEndPart at h
  by_cases hp : p.isEmpty
  · rw [if_pos hp] at h
    have hpe : p = [] := by simpa using hp
    subst hpe
    simp at h
    simp [h.symm, parseIsize, digitsOk]
  · rw [if_neg hp] at h
    cases hpi : parseIsize p with
    | none => rw [hpi] at h; simp at h
    | some w => rw [hpi] at h; simp at h; simp [h.symm]

theorem parseBeginPart_ok_shape (p : List Char) (v : Int)
    (h : parseBeginPart p = Except.ok v) : p = [] ∨ (parseIsize p).isSome = true := by
  unfold parseBeginPart at h
  by_cases hp : p.isEmpty
  · exact Or.inl (by simpa using hp)
  · rw [if_neg hp] at h
    cases hpi : parseIsize p with
    | none => rw [hpi] at h; simp at h
    | some w => simp [hpi]

theorem parseEndPart_ok_shape (p : List Char) (v : Option Int)
    (h : parseEndPart p = Except.ok v) : p = [] ∨ (parseIsize p).isSome = true := by
  unfold parseEndPart at h
  by_cases hp : p.isEmpty
  · exact Or.inl (by simpa using hp)
  · rw [if_neg hp] at h
    cases hpi : parseIsize p with
    | none => rw [hpi] at h; simp at h
    | some w => simp [hpi]

theorem fromString_pair_ok (a b : List Char) (sl : Slice) (ha : ':' ∉ a) (hb : ':' ∉ b)
    (h : Slice.fromString (a ++ ':' :: b) = Except.ok sl) :
    ¬(a = [] ∧ b = []) ∧ sl.begin = (parseIsize a).getD 0 ∧ sl.end_ = parseIsize b ∧
      (a = [] ∨ (parseIsize a).isSome = true) ∧ (b = [] ∨ (parseIsize b).isSome = true) := by
  rw [fromString_pair a b ha hb] at h
  by_cases hemp : (a.isEmpty && b.isEmpty) = true
  · rw [if_pos hemp] at h
    simp at h
  · rw [if_neg hemp] at h
    have hne : ¬(a = [] ∧ b = []) := by
      rintro ⟨h1, h2⟩
      subst h1
      subst h2
      simp at hemp
    cases hpb : parseBeginPart a with
    | error e => rw [hpb] at h; simp at h
    | ok bv =>
      rw [hpb] at h
      cases hpe : parseEndPart b with
      | error e => rw [hpe] at h; simp at h
      | ok en =>
        rw [hpe] at h
        have h2 := Except.ok.inj h
        subst h2
        exact ⟨hne, parseBeginPart_ok_val a bv hpb, parseEndPart_ok_val b en hpe,
          parseBeginPart_ok_shape a bv hpb, parseEndPart_ok_shape b en hpe⟩

theorem fromString_pair_ok_of (a b : List Char) (ha : ':' ∉ a) (hb : ':' ∉ b)
    (hne : ¬(a = [] ∧ b = [])) (hpa : a = [] ∨ (parseIsize a).isSome = true)
    (hpb2 : b = [] ∨ (parseIsize b).isSome = true) :
    ∃ sl, Slice.fromString (a ++ ':' :: b) = Except.ok sl := by
  rw [fromString_pair a b ha hb]
  have hemp : ¬((a.isEmpty && b.isEmpty) = true) := by
    intro hh
    simp at hh
    exact hne ⟨hh.1, hh.2⟩
  rw [if_neg hemp]
  obtain ⟨bv, hbv⟩ : ∃ bv, parseBeginPart a = Except.ok bv := by
    unfold parseBeginPart
    by_cases hae : a.isEmpty
    · rw [if_pos hae]
      exact ⟨0, rfl⟩
    · rw [if_neg hae]
      rcases hpa with hh | hh
      · exact absurd hh (by simpa using hae)
      · obtain ⟨w, hw⟩ := Option.isSome_iff_exists.mp hh
        rw [hw]
        exact ⟨w, rfl⟩
  obtain ⟨en, hen⟩ : ∃ en, parseEndPart b = Except.ok en := by
    unfold parseEndPart
    by_cases hbe : b.isEmpty
    · rw [if_pos hbe]
      exact ⟨none, rfl⟩
    · rw [if_neg hbe]
      rcases hpb2 with hh | hh
      · exact absurd hh (by simpa using hbe)
      · obtain ⟨w, hw⟩ := Option.isSome_iff_exists.mp hh
        rw [hw]
        exact ⟨some w, rfl⟩
  rw [hbv, hen]
  exact ⟨_, rfl⟩

/-- C6 (amended): `Slice::from_string` succeeds iff the text splits at a
unique colon into two parts, not both empty, with each nonempty part an
optionally `+`/`-`-signed base-10 integer whose value fits the `isize`
range; on success `begin` is the parsed begin part (0 when empty) and
`end` is the parsed end part (absent when empty). -/
theorem c6_amended (cs : List Char) :
    ((∃ sl, Slice.fromString cs = Except.ok sl) ↔
      ∃ a b, cs = a ++ ':' :: b ∧ ':' ∉ a ∧ ':' ∉ b ∧ ¬(a = [] ∧ b = []) ∧
        (a = [] ∨ specIntFull a = true) ∧ (b = [] ∨ specIntFull b = true)) ∧
    ∀ a b sl, cs = a ++ ':' :: b → ':' ∉ a → ':' ∉ b →
      Slice.fromString cs = Except.ok sl →
      sl.begin = (parseIsize a).getD 0 ∧ sl.end_ = parseIsize b := by
  by_cases hpair : ∃ p0 p1, splitChar ':' cs = [p0, p1]
  · obtain ⟨p0, p1, hsp⟩ := hpair
    obtain ⟨hcs0, hp0, hp1⟩ := splitChar_pair_inv ':' cs p0 p1 hsp
    subst hcs0
    constructor
    · constructor
      · rintro ⟨sl, hsl⟩
        obtain ⟨hne, _, _, hpa, hpb2⟩ := fromString_pair_ok p0 p1 sl hp0 hp1 hsl
        refine ⟨p0, p1, rfl, hp0, hp1, hne, ?_, ?_⟩
        · rcases hpa with hh | hh
          · exact Or.inl hh
          · exact Or.inr (by rw [← parseIsize_isSome_eq]; exact hh)
        · rcases hpb2 with hh | hh
          · exact Or.inl hh
          · exact Or.inr (by rw [← parseIsize_isSome_eq]; exact hh)
      · rintro ⟨a, b, hcs, ha, hb, hne, hpa, hpb2⟩
        rw [hcs] at hsp
        rw [splitChar_pair_of ':' a b ha hb] at hsp
        have hae : a = p0 ∧ b = p1 := by
          have h1 := (List.cons.injEq a [b] p0 [p1]).mp hsp
          exact ⟨h1.1, ((List.cons.injEq b [] p1 []).mp h1.2).1⟩
        obtain ⟨h1, h2⟩ := hae
        subst h1
        subst h2
        refine fromString_pair_ok_of a b ha hb hne ?_ ?_
        · rcases hpa with hh | hh
          · exact Or.inl hh
          · exact Or.inr (by rw [parseIsize_isSome_eq]; exact hh)
        · rcases hpb2 with hh | hh
          · exact Or.inl hh
          · exact Or.inr (by rw [parseIsize_isSome_eq]; exact hh)
    · intro a b sl hcs ha hb hok
      rw [hcs] at hsp hok
      rw [splitChar_pair_of ':' a b ha hb] at hsp
      obtain ⟨h1, h2⟩ : a = p0 ∧ b = p1 := by
        have h1 := (List.cons.injEq a [b] p0 [p1]).mp hsp
        exact ⟨h1.1, ((List.cons.injEq b [] p1 []).mp h1.2).1⟩
      obtain ⟨_, hbeg, hend, _, _⟩ := fromString_pair_ok a b sl ha hb hok
      exact ⟨hbeg, hend⟩
  · have herr : Slice.fromString cs = Except.error "Invalid slice" := by
      unfold Slice.fromString
      cases h0 : splitChar ':' cs with
      | nil => exact absurd h0 (splitChar_ne_nil ':' cs)
      | cons p ps =>
        cases ps with
        | nil => rfl
        | cons q qs =>
          cases qs with
          | nil => exact absurd ⟨p, q, h0⟩ hpair
          | cons r rs => rfl
    constructor
    · constructor
      · rintro ⟨sl, hsl⟩
        rw [herr] at hsl
        simp at hsl
      · rintro ⟨a, b, hcs, ha, hb, _, _, _⟩
        exact absurd ⟨a, b, by rw [hcs]; exact splitChar_pair_of ':' a b ha hb⟩ hpair
    · intro a b sl hcs ha hb hok
      rw [herr] at hok
      simp at hok

/-- C6 counterexample: the claim's grammar admits only an optional leading
`-`, but the code accepts `+1:2`, so the claimed equivalence fails there. -/
theorem c6_counterexample : ¬claimSixHolds ['+', '1', ':', '2'] := by
  intro h
  have hok : ∃ sl, Slice.fromString ['+', '1', ':', '2'] = Except.ok sl :=
    ⟨⟨1, some 2⟩, rfl⟩
  obtain ⟨a, b, hcs, ha, hb, hne, hpa, hpb⟩ := h.mp hok
  have hsp : splitChar ':' ['+', '1', ':', '2'] = [a, b] := by
    rw [hcs]
    exact splitChar_pair_of ':' a b ha hb
  have hX : splitChar ':' ['+', '1', ':', '2'] = [['+', '1'], ['2']] := by decide
  rw [hX] at hsp
  obtain ⟨h1, h2⟩ : ['+', '1'] = a ∧ ['2'] = b := by
    have h1 := (List.cons.injEq (['+', '1'] : List Char) [['2']] a [b]).mp hsp
    exact ⟨h1.1, ((List.cons.injEq (['2'] : List Char) [] b []).mp h1.2).1⟩
  subst h1
  subst h2
  rcases hpa with hh | hh
  · simp at hh
  · simp [specIntNoPlus, digitsOk] at hh

/-- C6 witness: the amended field characterization at `1:2`. -/
theorem c6_witness :
    (⟨1, some 2⟩ : Slice).begin = (parseIsize ['1']).getD 0 ∧
      (⟨1, some 2⟩ : Slice).end_ = parseIsize ['2'] :=
  (c6_amended ['1', ':', '2']).2 ['1'] ['2'] ⟨1, some 2⟩ rfl (by decide) (by decide) rfl

theorem linesAux_append (l : List Char) (hnl : '\n' ∉ l) :
    ∀ (acc rest : List Char),
      linesAux acc (l ++ '\n' :: rest) = stripCr (acc.reverse ++ l) :: linesAux [] rest := by
  induction l with
  | nil => intro acc rest; simp [linesAux]
  | cons c l ih =>
    intro acc rest
    have hc : c ≠ '\n' := by intro h; exact hnl (by simp [h])
    have h' : '\n' ∉ l := by intro h; exact hnl (by simp [h])
    rw [List.cons_append]
    simp only [linesAux]
    rw [if_neg hc, ih h']
    simp

theorem linesAux_nolf (l : List Char) (hnl : '\n' ∉ l) :
    ∀ acc : List Char,
      linesAux acc l = if acc.reverse ++ l = [] then [] else [acc.reverse ++ l] := by
  induction l with
  | nil =>
    intro acc
    simp only [linesAux, List.append_nil]
    by_cases h : acc = []
    · subst h
      simp
    · rw [if_neg (by simpa using h), if_neg (by simp [List.reverse_eq_nil_iff, h])]
  | cons c l ih =>
    intro acc
    have hc : c ≠ '\n' := by intro h; exact hnl (by simp [h])
    have h' : '\n' ∉ l := by intro h; exact hnl (by simp [h])
    simp only [linesAux]
    rw [if_neg hc, ih h']
    simp

theorem linesOf_append (l rest : List Char) (hnl : '\n' ∉ l) :
    linesOf (l ++ '\n' :: rest) = stripCr l :: linesOf rest := by
  unfold linesOf
  rw [linesAux_append l hnl [] rest]
  simp

theorem linesOf_nolf (l : List Char) (hnl : '\n' ∉ l) :
    linesOf l = if l = [] then [] else [l] := by
  unfold linesOf
  rw [linesAux_nolf l hnl []]
  simp

theorem dropWhile_head_false {α : Type} (p : α → Bool) (l : List α) (c : α) (t : List α)
    (h : l.dropWhile p = c :: t) : p c = false := by
  induction l with
  | nil => simp at h
  | cons x xs ih =>
    rw [List.dropWhile_cons] at h
    by_cases hp : p x = true
    · rw [if_pos hp] at h
      exact ih h
    · rw [if_neg hp] at h
      cases h
      simpa using hp

theorem crOk_suffix (a b : List Char) (h : crOk (a ++ b) = true) : crOk b = true := by
  induction a with
  | nil => simpa using h
  | cons c a ih =>
    rw [List.cons_append] at h
    simp only [crOk, Bool.and_eq_true] at h
    exact ih h.2

theorem crOk_getLast (l : List Char) (h : crOk l = true) : l.getLast? ≠ some '\r' := by
  induction l with
  | nil => simp
  | cons c rest ih =>
    simp only [crOk, Bool.and_eq_true] at h
    cases hr : rest with
    | nil =>
      subst hr
      simp at h ⊢
      intro hbad
      subst hbad
      simp at h
    | cons d ds =>
      rw [List.getLast?_cons_cons]
      rw [hr] at ih
      exact ih (hr ▸ h.2)

theorem crOk_tail (c : Char) (t : List Char) (h : crOk (c :: t) = true) : crOk t = true := by
  simp only [crOk, Bool.and_eq_true] at h
  exact h.2

theorem eq_dropLast_concat_of_getLast (l : List Char) (a : Char)
    (h : l.getLast? = some a) : l = l.dropLast ++ [a] := by
  have hne : l ≠ [] := by intro hh; subst hh; simp at h
  have h2 : l.getLast? = some (l.getLast hne) := List.getLast?_eq_getLast l hne
  rw [h2] at h
  have h3 : a = l.getLast hne := by injection h with h; exact h.symm
  rw [h3]
  exact (List.dropLast_append_getLast hne).symm

theorem linesOf_no_lf_aux :
    ∀ (n : Nat) (cs : List Char), cs.length ≤ n → ∀ l ∈ linesOf cs, '\n' ∉ l := by
  intro n
  induction n with
  | zero =>
    intro cs h l hl
    have hcs : cs = [] := List.length_eq_zero.mp (Nat.le_zero.mp h)
    subst hcs
    simp [linesOf, linesAux] at hl
  | succ n ih =>
    intro cs hlen l hl
    cases hdw : cs.dropWhile (fun c => c != '\n') with
    | nil =>
      have hno : '\n' ∉ cs := by
        intro hm
        have := List.dropWhile_eq_nil_iff.mp hdw _ hm
        simp at this
      rw [linesOf_nolf cs hno] at hl
      by_cases hcs : cs = []
      · rw [if_pos hcs] at hl
        simp at hl
      · rw [if_neg hcs] at hl
        simp at hl
        subst hl
        exact hno
    | cons c t =>
      have hc : c = '\n' := by
        have := dropWhile_head_false _ cs c t hdw
        simpa using this
      subst hc
      have hdecomp : cs = cs.takeWhile (fun c => c != '\n') ++ '\n' :: t := by
        conv_lhs => rw [← List.takeWhile_append_dropWhile (p := fun c => c != '\n') (l := cs)]
        rw [hdw]
      have htw : '\n' ∉ cs.takeWhile (fun c => c != '\n') := by
        intro hm
        have := List.mem_takeWhile_imp hm
        simp at this
      rw [hdecomp, linesOf_append _ _ htw] at hl
      rcases List.mem_cons.mp hl with h1 | h1
      · subst h1
        intro hm
        apply htw
        unfold stripCr at hm
        by_cases hlast : (cs.takeWhile (fun c => c != '\n')).getLast? = some '\r'
        · rw [if_pos hlast] at hm
          exact (List.dropLast_sublist _).subset hm
        · rw [if_neg hlast] at hm
          exact hm
      · have hlt : t.length ≤ n := by
          have h2 : (('\n' :: t) : List Char).length ≤ cs.length := by
            rw [← hdw]
            exact (List.dropWhile_sublist _).length_le
          simp at h2
          omega
        exact ih t hlt l h1

theorem linesOf_no_lf (cs l : List Char) (h : l ∈ linesOf cs) : '\n' ∉ l :=
  linesOf_no_lf_aux cs.length cs le_rfl l h

theorem linesOf_no_cr_aux :
    ∀ (n : Nat) (cs : List Char), cs.length ≤ n → crOk cs = true →
      ∀ l ∈ linesOf cs, l.getLast? ≠ some '\r' := by
  intro n
  induction n with
  | zero =>
    intro cs h hcr l hl
    have hcs : cs = [] := List.length_eq_zero.mp (Nat.le_zero.mp h)
    subst hcs
    simp [linesOf, linesAux] at hl
  | succ n ih =>
    intro cs hlen hcr l hl
    cases hdw : cs.dropWhile (fun c => c != '\n') with
    | nil =>
      have hno : '\n' ∉ cs := by
        intro hm
        have := List.dropWhile_eq_nil_iff.mp hdw _ hm
        simp at this
      rw [linesOf_nolf cs hno] at hl
      by_cases hcs : cs = []
      · rw [if_pos hcs] at hl
        simp at hl
      · rw [if_neg hcs] at hl
        simp at hl
        subst hl
        exact crOk_getLast _ hcr
    | cons c t =>
      have hc : c = '\n' := by
        have := dropWhile_head_false _ cs c t hdw
        simpa using this
      subst hc
      have hdecomp : cs = cs.takeWhile (fun c => c != '\n') ++ '\n' :: t := by
        conv_lhs => rw [← List.takeWhile_append_dropWhile (p := fun c => c != '\n') (l := cs)]
        rw [hdw]
      have htw : '\n' ∉ cs.takeWhile (fun c => c != '\n') := by
        intro hm
        have := List.mem_takeWhile_imp hm
        simp at this
      rw [hdecomp, linesOf_append _ _ htw] at hl
      rcases List.mem_cons.mp hl with h1 | h1
      · subst h1
        unfold stripCr
        by_cases hlast : (cs.takeWhile (fun c => c != '\n')).getLast? = some '\r'
        · rw [if_pos hlast]
          intro hbad
          have hu := eq_dropLast_concat_of_getLast _ _ hlast
          have hv := eq_dropLast_concat_of_getLast _ _ hbad
          set u := (cs.takeWhile (fun c => c != '\n')).dropLast with hudef
          set v := u.dropLast with hvdef
          have hchunk : cs.takeWhile (fun c => c != '\n') = v ++ ['\r', '\r'] := by
            rw [hu, hv]
            simp
          have hcs2 : cs = v ++ '\r' :: '\r' :: '\n' :: t := by
            rw [hdecomp, hchunk]
            simp
          have hbadcr : crOk ('\r' :: '\r' :: '\n' :: t) = true := by
            apply crOk_suffix v
            rw [← hcs2]
            exact hcr
          simp [crOk] at hbadcr
        · rw [if_neg hlast]
          exact hlast
      · have hlt : t.length ≤ n := by
          have h2 : (('\n' :: t) : List Char).length ≤ cs.length := by
            rw [← hdw]
            exact (List.dropWhile_sublist _).length_le
          simp at h2
          omega
        have hcrt : crOk t = true := by
          have := crOk_suffix (cs.takeWhile (fun c => c != '\n')) ('\n' :: t) (by rw [← hdecomp]; exact hcr)
          exact crOk_tail _ _ this
        exact ih t hlt hcrt l h1

theorem linesOf_no_cr (cs : List Char) (hcr : crOk cs = true) (l : List Char)
    (h : l ∈ linesOf cs) : l.getLast? ≠ some '\r' :=
  linesOf_no_cr_aux cs.length cs le_rfl hcr l h

theorem sliceInput_sublist (s : Slice) (L : List (List Char)) :
    (sliceInput s L).Sublist L := by
  obtain ⟨bg, en⟩ := s
  have hproc : (procList ⟨bg, en⟩ L).Sublist L :=
    (List.take_sublist _ _).trans (List.drop_sublist _ _)
  by_cases hb : bg < 0
  · rw [sliceInput_bufmode ⟨bg, en⟩ L hb]
    have hbase : ((procList ⟨bg, en⟩ L).drop
        ((procList ⟨bg, en⟩ L).length - bufSize ⟨bg, en⟩)).Sublist L :=
      (List.drop_sublist _ _).trans hproc
    unfold finalTrim
    cases en with
    | none => exact hbase
    | some e =>
      dsimp only
      split
      · exact (List.take_sublist _ _).trans hbase
      · exact (List.take_sublist _ _).trans hbase
  · by_cases hbsz : bufSize ⟨bg, en⟩ = 0
    · rw [sliceInput_direct_nobuf ⟨bg, en⟩ L hb hbsz]
      exact hproc
    · rw [sliceInput_direct_buf ⟨bg, en⟩ L hb hbsz]
      exact (List.take_sublist _ _).trans hproc

theorem sliceInput_zero_none (L : List (List Char)) (h : L.length ≤ usizeMax) :
    sliceInput ⟨0, none⟩ L = L := by
  rw [sliceInput_direct_nobuf ⟨0, none⟩ L (by simp) rfl]
  unfold procList
  have h1 : skipCount ⟨0, none⟩ = 0 := rfl
  have h2 : stopCount ⟨0, none⟩ = usizeMax := rfl
  have h3 : bufSize ⟨0, none⟩ = 0 := rfl
  rw [h1, h2, h3]
  have h4 : satAdd usizeMax 0 = usizeMax := by simp [satAdd]
  rw [h4, List.drop_zero]
  exact List.take_of_length_le h

theorem linesOf_joinLf (ls : List (List Char))
    (h : ∀ l ∈ ls, '\n' ∉ l ∧ l.getLast? ≠ some '\r') :
    linesOf (joinLf ls) = ls := by
  induction ls with
  | nil => rfl
  | cons l rest ih =>
    have h1 := h l (by simp)
    show linesOf (l ++ '\n' :: joinLf rest) = l :: rest
    rw [linesOf_append l _ h1.1, ih (fun x hx => h x (by simp [hx]))]
    unfold stripCr
    rw [if_neg h1.2]

/-- C8: slicing with the spec parsed from `0:` reproduces every input line
in order, each terminated by a single LF — CRLF and LF boundaries both
recognized on input, and a trailing LF emitted even when the source's last
line lacked one (all of which `linesOf`/`joinLf` encode). -/
theorem c8_roundtrip :
    Slice.fromString ['0', ':'] = Except.ok ⟨0, none⟩ ∧
    ∀ bytes : List Char, (linesOf bytes).length ≤ usizeMax →
      sliceBytes ⟨0, none⟩ bytes = joinLf (linesOf bytes) := by
  refine ⟨rfl, fun bytes h => ?_⟩
  unfold sliceBytes
  rw [sliceInput_zero_none _ h]

/-- C8 witness: a CRLF-terminated line and an unterminated final line both
come out LF-terminated. -/
theorem c8_witness :
    sliceBytes ⟨0, none⟩ ['a', '\r', '\n', 'b'] = joinLf (linesOf ['a', '\r', '\n', 'b']) :=
  c8_roundtrip.2 ['a', '\r', '\n', 'b'] (by decide)

/-- C9 counterexample: a final line ending in a bare CR breaks idempotence,
because the CR survives into the output and is then recognized as part of a
CRLF boundary on the second pass. -/
theorem c9_counterexample :
    sliceBytes ⟨0, none⟩ (sliceBytes ⟨0, none⟩ ['a', '\r']) ≠
      sliceBytes ⟨0, none⟩ ['a', '\r'] := by decide

/-- C9 (amended): for inputs in which every CR is immediately followed by
LF, re-slicing any slice's output with `0:` reproduces it byte for byte. -/
theorem c9_amended (s : Slice) (bytes : List Char) (hcr : crOk bytes = true)
    (hlen : (linesOf bytes).length ≤ usizeMax) :
    sliceBytes ⟨0, none⟩ (sliceBytes s bytes) = sliceBytes s bytes := by
  unfold sliceBytes
  have hsub : (sliceInput s (linesOf bytes)).Sublist (linesOf bytes) :=
    sliceInput_sublist s (linesOf bytes)
  have hprops : ∀ l ∈ sliceInput s (linesOf bytes), '\n' ∉ l ∧ l.getLast? ≠ some '\r' := by
    intro l hl
    have hmem := hsub.subset hl
    exact ⟨linesOf_no_lf bytes l hmem, linesOf_no_cr bytes hcr l hmem⟩
  rw [linesOf_joinLf _ hprops, sliceInput_zero_none _ (le_trans hsub.length_le hlen)]

/-- C9 witness: a two-line LF input sliced to its first line re-slices to
itself. -/
theorem c9_witness :
    sliceBytes ⟨0, none⟩ (sliceBytes ⟨0, some 1⟩ ['a', '\n', 'b', '\n']) =
      sliceBytes ⟨0, some 1⟩ ['a', '\n', 'b', '\n'] :=
  c9_amended ⟨0, some 1⟩ ['a', '\n', 'b', '\n'] (by decide) (by decide)

theorem writeLineE_written (wf : Nat → Bool) (st : RunState) (l : List Char)
    (st1 : RunState) (h : writeLineE wf st l = Except.ok st1) :
    st1.written = st.written ++ [l] := by
  unfold writeLineE at h
  split at h
  · cases h
    rfl
  · simp at h

theorem stepE_written (wf : Nat → Bool) (bsz : Nat) (m : Bool) (st : RunState)
    (l : List Char) (st1 : RunState) (h : stepE wf bsz m st l = Except.ok st1) :
    ∃ t, st1.written = st.written ++ t := by
  unfold stepE at h
  by_cases h0 : bsz = 0
  · rw [if_pos h0] at h
    cases hw : writeLineE wf st l with
    | error s => rw [hw] at h; simp at h
    | ok st2 =>
      rw [hw] at h
      cases h
      exact ⟨[l], writeLineE_written wf st l st2 hw⟩
  · rw [if_neg h0] at h
    dsimp only at h
    by_cases hfull : st.buf.length = bsz
    · rw [if_pos hfull] at h
      cases hbuf : st.buf with
      | nil => rw [hbuf] at h; cases h; exact ⟨[], by simp⟩
      | cons f r =>
        rw [hbuf] at h
        cases m with
        | true =>
          simp only [if_pos rfl] at h
          cases h
          exact ⟨[], by simp⟩
        | false =>
          simp only [Bool.false_eq_true, if_neg] at h
          cases hw : writeLineE wf { st with buf := r } f with
          | error s => rw [hw] at h; simp at h
          | ok st2 =>
            rw [hw] at h
            cases h
            exact ⟨[f], writeLineE_written wf { st with buf := r } f st2 hw⟩
    · rw [if_neg hfull] at h
      cases h
      exact ⟨[], by simp⟩

theorem runLoop_written (wf : Nat → Bool) (bsz : Nat) (m : Bool) :
    ∀ (xs : List (Except Unit (List Char))) (st : RunState),
      ∃ t, writtenOf (runLoop wf bsz m st xs) = st.written ++ t := by
  intro xs
  induction xs with
  | nil => intro st; exact ⟨[], by simp [runLoop, writtenOf]⟩
  | cons item xs ih =>
    intro st
    cases item with
    | error u => exact ⟨[], by simp [runLoop, writtenOf]⟩
    | ok l =>
      cases hst : stepE wf bsz m st l with
      | error side =>
        exact ⟨[], by simp only [runLoop, hst, writtenOf]; simp⟩
      | ok st1 =>
        obtain ⟨t1, ht1⟩ := stepE_written wf bsz m st l st1 hst
        obtain ⟨t2, ht2⟩ := ih st1
        refine ⟨t1 ++ t2, ?_⟩
        simp only [runLoop, hst]
        rw [ht2, ht1, List.append_assoc]

theorem writeAllE_written (wf : Nat → Bool) :
    ∀ (ls written : List (List Char)), ∃ t, (writeAllE wf written ls).1 = written ++ t := by
  intro ls
  induction ls with
  | nil => intro written; exact ⟨[], by simp [writeAllE]⟩
  | cons l ls ih =>
    intro written
    unfold writeAllE
    by_cases hw : wf written.length
    · rw [if_pos hw]
      obtain ⟨t, ht⟩ := ih (written ++ [l])
      exact ⟨[l] ++ t, by rw [ht, List.append_assoc]⟩
    · rw [if_neg hw]
      exact ⟨[], by simp⟩

theorem runLoop_error_suffix (wf : Nat → Bool) (bsz : Nat) (m : Bool) :
    ∀ (pre : List (Except Unit (List Char))) (st : RunState),
      ∃ (side : IoSide) (w : List (List Char)),
        ∀ t : List (Except Unit (List Char)),
          runLoop wf bsz m st (pre ++ Except.error () :: t) = Except.error (side, w) := by
  intro pre
  induction pre with
  | nil => intro st; exact ⟨IoSide.read, st.written, fun t => rfl⟩
  | cons item pre ih =>
    intro st
    cases item with
    | error u => exact ⟨IoSide.read, st.written, fun t => rfl⟩
    | ok l =>
      cases hst : stepE wf bsz m st l with
      | error side =>
        exact ⟨side, st.written, fun t => by
          simp only [List.cons_append, runLoop, hst]⟩
      | ok st1 =>
        obtain ⟨side, w, hw⟩ := ih st1
        exact ⟨side, w, fun t => by
          simp only [List.cons_append, runLoop, hst]
          exact hw t⟩

theorem stepE_alwaysOk (bsz : Nat) (m : Bool) (st : RunState) (l : List Char) :
    ∃ st1, stepE alwaysOk bsz m st l = Except.ok st1 := by
  unfold stepE
  by_cases h0 : bsz = 0
  · rw [if_pos h0]
    exact ⟨_, rfl⟩
  · rw [if_neg h0]
    dsimp only
    by_cases hfull : st.buf.length = bsz
    · rw [if_pos hfull]
      cases hbuf : st.buf with
      | nil => exact ⟨_, rfl⟩
      | cons f r =>
        cases m with
        | true => exact ⟨_, rfl⟩
        | false => exact ⟨_, rfl⟩
    · rw [if_neg hfull]
      exact ⟨_, rfl⟩

theorem runLoop_alwaysOk_read (bsz : Nat) (m : Bool) :
    ∀ (pre : List (Except Unit (List Char))) (st : RunState)
      (t : List (Except Unit (List Char))),
      (∀ x ∈ pre, ∃ l, x = Except.ok l) →
      ∃ w, runLoop alwaysOk bsz m st (pre ++ Except.error () :: t) =
        Except.error (IoSide.read, w) := by
  intro pre
  induction pre with
  | nil => intro st t _; exact ⟨st.written, rfl⟩
  | cons item pre ih =>
    intro st t hok
    obtain ⟨l, hl⟩ := hok item (by simp)
    subst hl
    obtain ⟨st1, hst1⟩ := stepE_alwaysOk bsz m st l
    obtain ⟨w, hw⟩ := ih st1 t (fun x hx => hok x (by simp [hx]))
    exact ⟨w, by simp only [List.cons_append, runLoop, hst1]; exact hw⟩

theorem sliceE_take_decomp (s : Slice) (skipped pre rest : List (Except Unit (List Char)))
    (hskip : skipped.length = skipCount s)
    (hpre : pre.length < satAdd (stopCount s) (bufSize s)) :
    ((skipped ++ (pre ++ (Except.error () :: rest))).drop (skipCount s)).take
        (satAdd (stopCount s) (bufSize s)) =
      pre ++ (Except.error () ::
        rest.take (satAdd (stopCount s) (bufSize s) - pre.length - 1)) := by
  rw [← hskip, List.drop_left]
  obtain ⟨k, hk⟩ : ∃ k, satAdd (stopCount s) (bufSize s) - pre.length = k + 1 :=
    ⟨satAdd (stopCount s) (bufSize s) - pre.length - 1, by omega⟩
  have h2 : satAdd (stopCount s) (bufSize s) = pre.length + (k + 1) := by omega
  rw [h2, List.take_append, List.take_succ_cons]
  have h4 : pre.length + (k + 1) - pre.length - 1 = k := by omega
  rw [h4]

theorem writeLineE_error (wf : Nat → Bool) (st : RunState) (l : List Char) (side : IoSide)
    (h : writeLineE wf st l = Except.error side) : side = IoSide.write := by
  unfold writeLineE at h
  split at h
  · simp at h
  · cases h
    rfl

theorem stepE_error_write (wf : Nat → Bool) (bsz : Nat) (m : Bool) (st : RunState)
    (l : List Char) (side : IoSide) (h : stepE wf bsz m st l = Except.error side) :
    side = IoSide.write := by
  unfold stepE at h
  by_cases h0 : bsz = 0
  · rw [if_pos h0] at h
    cases hw : writeLineE wf st l with
    | error s =>
      rw [hw] at h
      cases h
      exact writeLineE_error wf st l side hw
    | ok st2 => rw [hw] at h; simp at h
  · rw [if_neg h0] at h
    dsimp only at h
    by_cases hfull : st.buf.length = bsz
    · rw [if_pos hfull] at h
      cases hbuf : st.buf with
      | nil => rw [hbuf] at h; simp at h
      | cons f r =>
        rw [hbuf] at h
        cases m with
        | true => simp at h
        | false =>
          simp only [Bool.false_eq_true, if_neg] at h
          cases hw : writeLineE wf { st with buf := r } f with
          | error s =>
            rw [hw] at h
            cases h
            exact writeLineE_error wf _ f side hw
          | ok st2 => rw [hw] at h; simp at h
    · rw [if_neg hfull] at h
      simp at h

theorem runLoop_append (wf : Nat → Bool) (bsz : Nat) (m : Bool) :
    ∀ (pre ys : List (Except Unit (List Char))) (st st' : RunState),
      runLoop wf bsz m st pre = Except.ok st' →
      runLoop wf bsz m st (pre ++ ys) = runLoop wf bsz m st' ys := by
  intro pre
  induction pre with
  | nil =>
    intro ys st st' h
    cases h
    rfl
  | cons item pre ih =>
    intro ys st st' h
    cases item with
    | error u => simp [runLoop] at h
    | ok l =>
      cases hst : stepE wf bsz m st l with
      | error side => simp only [runLoop, hst] at h; simp at h
      | ok st1 =>
        simp only [runLoop, hst] at h
        simp only [List.cons_append, runLoop, hst]
        exact ih ys st1 st' h

theorem sliceE_take_item (s : Slice) (skipped pre rest : List (Except Unit (List Char)))
    (x : Except Unit (List Char)) (hskip : skipped.length = skipCount s)
    (hpre : pre.length < satAdd (stopCount s) (bufSize s)) :
    ((skipped ++ (pre ++ (x :: rest))).drop (skipCount s)).take
        (satAdd (stopCount s) (bufSize s)) =
      pre ++ (x :: rest.take (satAdd (stopCount s) (bufSize s) - pre.length - 1)) := by
  rw [← hskip, List.drop_left]
  obtain ⟨k, hk⟩ : ∃ k, satAdd (stopCount s) (bufSize s) - pre.length = k + 1 :=
    ⟨satAdd (stopCount s) (bufSize s) - pre.length - 1, by omega⟩
  have h2 : satAdd (stopCount s) (bufSize s) = pre.length + (k + 1) := by omega
  rw [h2, List.take_append, List.take_succ_cons]
  have h4 : pre.length + (k + 1) - pre.length - 1 = k := by omega
  rw [h4]

theorem runLoop_allok_write (wf : Nat → Bool) (bsz : Nat) (m : Bool) :
    ∀ (xs : List (Except Unit (List Char))) (st : RunState),
      (∀ x ∈ xs, ∃ l, x = Except.ok l) →
      (∃ st', runLoop wf bsz m st xs = Except.ok st') ∨
        ∃ w, runLoop wf bsz m st xs = Except.error (IoSide.write, w) := by
  intro xs
  induction xs with
  | nil => intro st _; exact Or.inl ⟨st, rfl⟩
  | cons item xs ih =>
    intro st hok
    obtain ⟨l, hl⟩ := hok item (by simp)
    subst hl
    cases hst : stepE wf bsz m st l with
    | error side =>
      have hs := stepE_error_write wf bsz m st l side hst
      subst hs
      exact Or.inr ⟨st.written, by simp only [runLoop, hst]⟩
    | ok st1 =>
      rcases ih st1 (fun x hx => hok x (by simp [hx])) with ⟨st', h⟩ | ⟨w, h⟩
      · exact Or.inl ⟨st', by simp only [runLoop, hst]; exact h⟩
      · exact Or.inr ⟨w, by simp only [runLoop, hst]; exact h⟩

theorem writeAllE_side (wf : Nat → Bool) :
    ∀ (ls written : List (List Char)),
      (writeAllE wf written ls).2 = none ∨
        (writeAllE wf written ls).2 = some IoSide.write := by
  intro ls
  induction ls with
  | nil => intro written; exact Or.inl rfl
  | cons l ls ih =>
    intro written
    unfold writeAllE
    by_cases hw : wf written.length
    · rw [if_pos hw]
      exact ih (written ++ [l])
    · rw [if_neg hw]
      exact Or.inr rfl

/-- C7 (amended): a read failure at a line the loop actually examines (read
results consumed by the `skip` adapter are silently discarded, and lines
beyond the read bound are never pulled) or any write failure aborts
`slice_input` at that point: for a read failure the rest of the stream is
never consumed and the failure is the read side when all writes succeed;
for a write failure during the loop the run returns exactly the lines
written before it together with the write side, independent of the rest of
the stream; every failure a loop step raises and every flush failure is the
write side, so on a readable stream any failure is identified as a write
failure; a failed flush write stops the flush at once with the written
prefix; and the sink is only ever appended to (no rollback, no retry). -/
theorem c7_amended :
    (∀ (s : Slice) (wf : Nat → Bool) (skipped pre rest rest' : List (Except Unit (List Char))),
        skipped.length = skipCount s →
        pre.length < satAdd (stopCount s) (bufSize s) →
        sliceInputE s wf (skipped ++ (pre ++ (Except.error () :: rest))) =
          sliceInputE s wf (skipped ++ (pre ++ (Except.error () :: rest')))) ∧
    (∀ (s : Slice) (wf : Nat → Bool) (skipped pre rest : List (Except Unit (List Char))),
        skipped.length = skipCount s →
        pre.length < satAdd (stopCount s) (bufSize s) →
        ((sliceInputE s wf (skipped ++ (pre ++ (Except.error () :: rest)))).2).isSome = true) ∧
    (∀ (s : Slice) (skipped pre rest : List (Except Unit (List Char))),
        skipped.length = skipCount s →
        pre.length < satAdd (stopCount s) (bufSize s) →
        (∀ x ∈ pre, ∃ l, x = Except.ok l) →
        (sliceInputE s alwaysOk (skipped ++ (pre ++ (Except.error () :: rest)))).2 =
          some IoSide.read) ∧
    (∀ (s : Slice) (wf : Nat → Bool) (skipped pre rest : List (Except Unit (List Char)))
        (l : List Char) (st : RunState) (side : IoSide),
        skipped.length = skipCount s →
        pre.length < satAdd (stopCount s) (bufSize s) →
        runLoop wf (bufSize s) (bufMode s) ⟨[], [], 0⟩ pre = Except.ok st →
        stepE wf (bufSize s) (bufMode s) st l = Except.error side →
        sliceInputE s wf (skipped ++ (pre ++ (Except.ok l :: rest))) =
          (st.written, some IoSide.write)) ∧
    (∀ (wf : Nat → Bool) (bsz : Nat) (m : Bool) (st : RunState) (l : List Char)
        (side : IoSide), stepE wf bsz m st l = Except.error side → side = IoSide.write) ∧
    (∀ (wf : Nat → Bool) (written : List (List Char)) (l : List Char)
        (ls : List (List Char)), wf written.length = false →
        writeAllE wf written (l :: ls) = (written, some IoSide.write)) ∧
    (∀ (s : Slice) (wf : Nat → Bool) (inp : List (Except Unit (List Char))),
        (∀ x ∈ inp, ∃ l, x = Except.ok l) →
        (sliceInputE s wf inp).2 = none ∨ (sliceInputE s wf inp).2 = some IoSide.write) ∧
    (∀ (wf : Nat → Bool) (bsz : Nat) (m : Bool) (xs : List (Except Unit (List Char)))
        (st : RunState), ∃ t, writtenOf (runLoop wf bsz m st xs) = st.written ++ t) ∧
    (∀ (wf : Nat → Bool) (ls written : List (List Char)),
        ∃ t, (writeAllE wf written ls).1 = written ++ t) := by
  refine ⟨?_, ?_, ?_, ?_, stepE_error_write, ?_, ?_, runLoop_written, writeAllE_written⟩
  · intro s wf skipped pre rest rest' hskip hpre
    unfold sliceInputE
    rw [sliceE_take_decomp s skipped pre rest hskip hpre,
      sliceE_take_decomp s skipped pre rest' hskip hpre]
    dsimp only
    obtain ⟨side, w, hw⟩ := runLoop_error_suffix wf (bufSize s) (bufMode s) pre ⟨[], [], 0⟩
    rw [hw _, hw _]
  · intro s wf skipped pre rest hskip hpre
    unfold sliceInputE
    rw [sliceE_take_decomp s skipped pre rest hskip hpre]
    dsimp only
    obtain ⟨side, w, hw⟩ := runLoop_error_suffix wf (bufSize s) (bufMode s) pre ⟨[], [], 0⟩
    rw [hw _]
    rfl
  · intro s skipped pre rest hskip hpre hok
    unfold sliceInputE
    rw [sliceE_take_decomp s skipped pre rest hskip hpre]
    dsimp only
    obtain ⟨w, hw⟩ := runLoop_alwaysOk_read (bufSize s) (bufMode s) pre ⟨[], [], 0⟩ _ hok
    rw [hw]
  · intro s wf skipped pre rest l st side hskip hpre hrun hstep
    unfold sliceInputE
    rw [sliceE_take_item s skipped pre rest (Except.ok l) hskip hpre]
    dsimp only
    rw [runLoop_append wf (bufSize s) (bufMode s) pre _ ⟨[], [], 0⟩ st hrun]
    have hs := stepE_error_write wf (bufSize s) (bufMode s) st l side hstep
    subst hs
    simp only [runLoop, hstep]
  · intro wf written l ls hw
    unfold writeAllE
    rw [if_neg (by simp [hw])]
  · intro s wf inp hok
    unfold sliceInputE
    dsimp only
    have hxs : ∀ x ∈ (inp.drop (skipCount s)).take (satAdd (stopCount s) (bufSize s)),
        ∃ l, x = Except.ok l := by
      intro x hx
      exact hok x (((List.take_sublist _ _).trans (List.drop_sublist _ _)).subset hx)
    rcases runLoop_allok_write wf (bufSize s) (bufMode s) _ ⟨[], [], 0⟩ hxs with
      ⟨st', h⟩ | ⟨w, h⟩
    · rw [h]
      dsimp only
      by_cases hb : s.begin < 0
      · rw [if_pos hb]
        exact writeAllE_side wf _ st'.written
      · rw [if_neg hb]
        exact Or.inl rfl
    · rw [h]
      exact Or.inr rfl

/-- C7 counterexample: a read failure among the lines skipped by a positive
`begin` is discarded by the `skip` adapter — the run completes, emits the
following line, and reports no failure, contradicting the claim that any
read failure aborts with a failure value. -/
theorem c7_counterexample :
    sliceInputE ⟨1, none⟩ alwaysOk [Except.error (), Except.ok ['a']] =
      ([['a']], none) := by decide

/-- C7 witness: a read error in the examined region aborts identically no
matter what follows it. -/
theorem c7_witness :
    sliceInputE ⟨0, none⟩ alwaysOk ([] ++ ([] ++ (Except.error () :: [Except.ok ['b']]))) =
      sliceInputE ⟨0, none⟩ alwaysOk ([] ++ ([] ++ (Except.error () :: []))) :=
  c7_amended.1 ⟨0, none⟩ alwaysOk [] [] [Except.ok ['b']] [] rfl (by decide)
